import Mathlib

/-!
Verification development for a Sudoku solver.

The definitions below are a shallow embedding of the solver's Python source:
`board/board.py` and `board/validator.py` (the board model), the strategy
files under `strategies/`, `solvers/strategic_solver.py`,
`solvers/backtracking_solver.py`, and the state machine in `sudoku/sudoku.py`.
Cell values are `Option Nat` (`none` is an empty cell), candidate sets are
`Finset Nat`, and 9x9 grids are functions over `Fin 9`.
-/

set_option maxHeartbeats 1000000
set_option maxRecDepth 8000

namespace Sudoku

abbrev Idx := Fin 9

/-- A 9x9 grid of cell values; `none` models Python's `None` (empty cell). -/
abbrev Cells := Idx → Idx → Option Nat

/-- A 9x9 grid of candidate sets. -/
abbrev Cands := Idx → Idx → Finset Nat

/-- All cells in row-major order, as iterated by the Python nested loops
`for row in range(9): for col in range(9)`. -/
def idxPairsRM : List (Idx × Idx) :=
  (List.finRange 9).flatMap fun r => (List.finRange 9).map fun c => (r, c)

/-- Point update of a 9x9 grid, modelling an in-place item assignment
`grid[r][c] = v`. -/
def upd2 {α : Type} (g : Idx → Idx → α) (r c : Idx) (v : α) : Idx → Idx → α :=
  fun r1 c1 => if r1 = r ∧ c1 = c then v else g r1 c1

/-- Python's `set(range(1, 10))`. -/
def fullSet : Finset Nat := Finset.Icc 1 9

/-- Source `Board.get_row_numbers`: the set of filled values in a row. -/
def get_row_numbers (cells : Cells) (r : Idx) : Finset Nat :=
  Finset.univ.biUnion fun c => (cells r c).toFinset

/-- Source `Board.get_col_numbers`: the set of filled values in a column. -/
def get_col_numbers (cells : Cells) (c : Idx) : Finset Nat :=
  Finset.univ.biUnion fun r => (cells r c).toFinset

/-- Row index of the top-left corner of the box containing row `r`:
`(row // 3) * 3 + i`. -/
def boxIdx (r : Idx) (i : Fin 3) : Idx :=
  ⟨r.val / 3 * 3 + i.val, by have := r.isLt; omega⟩

/-- Source `Board.get_box_numbers`: the set of filled values in the 3x3 box
containing `(r, c)`. -/
def get_box_numbers (cells : Cells) (r c : Idx) : Finset Nat :=
  Finset.univ.biUnion fun p : Fin 3 × Fin 3 =>
    (cells (boxIdx r p.1) (boxIdx c p.2)).toFinset

/-- Source `Validator.check_placement`: the value is absent from the given row,
column and box value sets. -/
def check_placement (num : Nat) (row_nums col_nums box_nums : Finset Nat) : Prop :=
  num ∉ row_nums ∧ num ∉ col_nums ∧ num ∉ box_nums

instance (num : Nat) (a b c : Finset Nat) : Decidable (check_placement num a b c) := by
  unfold check_placement; infer_instance

/-- Source `Board.check_placement`: legality of placing `num` at `(r, c)` against the
current filled values. -/
def board_check_placement (cells : Cells) (num : Nat) (r c : Idx) : Prop :=
  check_placement num (get_row_numbers cells r) (get_col_numbers cells c)
    (get_box_numbers cells r c)

instance (cells : Cells) (num : Nat) (r c : Idx) :
    Decidable (board_check_placement cells num r c) := by
  unfold board_check_placement; infer_instance

/-- Source `is_valid_group` inside `Validator.validate`: the non-empty values of a
group are pairwise distinct (`len(values) == len(set(values))`). -/
def is_valid_group (g : List (Option Nat)) : Prop :=
  (g.filterMap id).Nodup

instance (g : List (Option Nat)) : Decidable (is_valid_group g) := by
  unfold is_valid_group; infer_instance

/-- The list of values of row `r`, in column order. -/
def rowList (cells : Cells) (r : Idx) : List (Option Nat) :=
  (List.finRange 9).map fun c => cells r c

/-- The list of values of column `c`, in row order. -/
def colList (cells : Cells) (c : Idx) : List (Option Nat) :=
  (List.finRange 9).map fun r => cells r c

/-- The list of values of the box whose top-left corner is `(3*br, 3*bc)`,
in row-major order, as gathered by `Validator.validate`. -/
def boxList (cells : Cells) (br bc : Fin 3) : List (Option Nat) :=
  ((List.finRange 3).flatMap fun i => (List.finRange 3).map fun j => ((i : Fin 3), (j : Fin 3))).map
    fun p => cells ⟨br.val * 3 + p.1.val, by have := br.isLt; have := p.1.isLt; omega⟩
      ⟨bc.val * 3 + p.2.val, by have := bc.isLt; have := p.2.isLt; omega⟩

/-- Source `Validator.validate`: every row, column and 3x3 box is a valid group. -/
def validate (cells : Cells) : Prop :=
  (∀ r : Idx, is_valid_group (rowList cells r)) ∧
  (∀ c : Idx, is_valid_group (colList cells c)) ∧
  (∀ br bc : Fin 3, is_valid_group (boxList cells br bc))

instance (cells : Cells) : Decidable (validate cells) := by
  unfold validate; infer_instance

/-- Source `Validator.is_solved`: every cell is filled and the board validates. -/
def is_solved (cells : Cells) : Prop :=
  (∀ r c : Idx, cells r c ≠ none) ∧ validate cells

instance (cells : Cells) : Decidable (is_solved cells) := by
  unfold is_solved; infer_instance

/-- Source `Board.update_candidates_backtracking` as a pure recomputation of the
candidate grid from the value grid: for an empty cell, `set(range(1,10))`
minus the row, column and box values; for a filled cell, the empty set. -/
def update_candidates_backtracking (cells : Cells) : Cands := fun r c =>
  if cells r c = none then
    (((fullSet \ get_row_numbers cells r) \ get_col_numbers cells c) \ get_box_numbers cells r c)
  else ∅

/-- The digit characters accepted by `Board.string_to_board`. -/
def digits : List Char := ['0', '1', '2', '3', '4', '5', '6', '7', '8', '9']

/-- One character of the puzzle string to one cell:
`int(char) if char != '0' else None`. -/
def charToCell (ch : Char) : Option Nat :=
  if ch = '0' then none else some (ch.toNat - '0'.toNat)

/-- The value grid built by `Board.string_to_board` from an 81-character
string read in row-major order. -/
def cellsOfString (s : List Char) : Cells := fun r c =>
  charToCell (s.getD (9 * r.val + c.val) '0')

/-- Well-formedness checked by the two asserts of `Board.string_to_board`:
length 81 and every character in `'0123456789'`. -/
def wellFormedString (s : List Char) : Prop :=
  s.length = 81 ∧ ∀ ch ∈ s, ch ∈ digits

instance (s : List Char) : Decidable (wellFormedString s) := by
  unfold wellFormedString; infer_instance

/-- The failure modes of `Board.__init__`: the `string_to_board` asserts
(malformed input) and the final `validate` assert (invalid initial state). -/
inductive BoardError
  | malformedInput
  | invalidInitialState
deriving DecidableEq

/-- The board owned by the solvers: the value grid and the candidate grid. -/
structure Board where
  cells : Cells
  candidates : Cands

instance : DecidableEq Board := fun a b =>
  decidable_of_iff (a.cells = b.cells ∧ a.candidates = b.candidates)
    (by cases a; cases b; simp)

instance {ε α : Type} [DecidableEq ε] [DecidableEq α] : DecidableEq (Except ε α) :=
  fun a b =>
  match a, b with
  | .error e, .error f => decidable_of_iff (e = f) (by simp)
  | .error _, .ok _ => isFalse (by simp)
  | .ok _, .error _ => isFalse (by simp)
  | .ok x, .ok y => decidable_of_iff (x = y) (by simp)

/-- Source `Board.string_to_board`: fails on malformed input, otherwise builds the
value grid. -/
def string_to_board (s : List Char) : Except BoardError Cells :=
  if wellFormedString s then .ok (cellsOfString s) else .error .malformedInput

/-- Source `Board.__init__`: build the value grid (may fail with malformed input),
compute the candidate grid (`initialize_candidates` is immediately
overwritten by the `update_candidates_backtracking` call in `__init__`),
then assert `validate` (invalid initial state on failure). -/
def board_init (s : List Char) : Except BoardError Board :=
  match string_to_board s with
  | .error e => .error e
  | .ok cells =>
    if validate cells then .ok ⟨cells, update_candidates_backtracking cells⟩
    else .error .invalidInitialState

/-- One cell rendered back to a character: an empty cell as `'0'`, a filled
cell as its digit character. -/
def cellChar (v : Option Nat) : Char :=
  match v with
  | none => '0'
  | some d => Char.ofNat ('0'.toNat + d)

/-- Reading the board back to a string in row-major order. -/
def readBack (cells : Cells) : List Char :=
  (List.finRange 81).map fun i =>
    cellChar (cells ⟨i.val / 9, by have := i.isLt; omega⟩ ⟨i.val % 9, by omega⟩)

/-- Ascending enumeration of a finite set of naturals by repeated minimum
extraction (the fuel is the cardinality); this is Python's `sorted(s)`. -/
def finSortedAux : Nat → Finset Nat → List Nat
  | 0, _ => []
  | n + 1, s =>
    match (s.min : Option Nat) with
    | Option.none => []
    | Option.some m => m :: finSortedAux n (s.erase m)

/-- Python's `sorted(...)` on a set of candidates. -/
def finSorted (s : Finset Nat) : List Nat := finSortedAux s.card s

/-- Python's `next(iter(candidates))` used by `SingleCandidateStrategy` on a
singleton set: the unique element (realized as the minimum; for a singleton
the iteration order is irrelevant). -/
def pickSingle (s : Finset Nat) : Nat := s.min.getD 0

/-- The `values_to_insert` list built by `SingleCandidateStrategy.process`:
over all cells in row-major order, every empty cell whose candidate set has
exactly one element. -/
def scFinds (b : Board) : List (Idx × Idx × Nat) :=
  idxPairsRM.filterMap fun p =>
    if b.cells p.1 p.2 = none ∧ (b.candidates p.1 p.2).card = 1 then
      some (p.1, p.2, pickSingle (b.candidates p.1 p.2))
    else none

/-- Source `SingleCandidateStrategy.process`: return the whole collected list, or
`None` when there is no find. -/
def singleCandidateProcess (b : Board) : Option (List (Idx × Idx × Nat)) :=
  if scFinds b = [] then none else some (scFinds b)

/-- The unit kinds scanned by the strategies, in the source's scan order
`['row', 'column', 'box']`. -/
inductive UnitType
  | row
  | column
  | box
deriving DecidableEq

/-- The 27 units in the scan order of `HiddenSinglesStrategy.process`:
rows 0-8, then columns 0-8, then boxes 0-8. -/
def unitsInOrder : List (UnitType × Idx) :=
  ([UnitType.row, UnitType.column, UnitType.box]).flatMap fun t =>
    (List.finRange 9).map fun i => (t, i)

/-- Source `_get_empty_cells_in_unit`: the empty cells of a row, column or box, in
the source's iteration order. -/
def empty_cells_in_unit (cells : Cells) (t : UnitType) (i : Idx) : List (Idx × Idx) :=
  match t with
  | .row => (List.finRange 9).filterMap fun c =>
      if cells i c = none then some (i, c) else none
  | .column => (List.finRange 9).filterMap fun r =>
      if cells r i = none then some (r, i) else none
  | .box =>
    ((List.finRange 3).flatMap fun a => (List.finRange 3).map fun b2 => (a, b2)).filterMap
      fun p =>
        let r : Idx := ⟨i.val / 3 * 3 + p.1.val, by have := i.isLt; have := p.1.isLt; omega⟩
        let c : Idx := ⟨i.val % 3 * 3 + p.2.val, by have := i.isLt; have := p.2.isLt; omega⟩
        if cells r c = none then some (r, c) else none

/-- The `candidate_locations[candidate]` list of `_find_hidden_single_in_unit`:
the empty cells of the unit whose candidate set contains `v`, in unit order. -/
def candidateLocations (cand : Cands) (ecs : List (Idx × Idx)) (v : Nat) : List (Idx × Idx) :=
  ecs.filter fun p => v ∈ cand p.1 p.2

/-- Source `_find_hidden_single_in_unit`: the first candidate value 1-9 held by
exactly one empty cell of the unit, where that cell has more than one
candidate. -/
def find_hidden_single_in_unit (cand : Cands) (ecs : List (Idx × Idx)) :
    Option (Idx × Idx × Nat) :=
  (List.range' 1 9).findSome? fun v =>
    match candidateLocations cand ecs v with
    | [p] => if 1 < (cand p.1 p.2).card then some (p.1, p.2, v) else none
    | _ => none

/-- One unit step of `HiddenSinglesStrategy.process`: skip units with no
empty cell, otherwise look for a hidden single. -/
def hiddenSinglesUnitScan (b : Board) (u : UnitType × Idx) : Option (Idx × Idx × Nat) :=
  let ecs := empty_cells_in_unit b.cells u.1 u.2
  if ecs.isEmpty then none else find_hidden_single_in_unit b.candidates ecs

/-- Source `HiddenSinglesStrategy.process`: return the first hidden single over the
27 units as a one-element insertion list, or `None`. -/
def hiddenSinglesProcess (b : Board) : Option (List (Idx × Idx × Nat)) :=
  (unitsInOrder.findSome? (hiddenSinglesUnitScan b)).map fun h => [h]

/-- The `pair_cells` list of `NakedPairsStrategy._find_naked_pairs_in_unit`:
empty cells of the unit with exactly two candidates, with their sets. -/
def nakedPairCells (cand : Cands) (ecs : List (Idx × Idx)) :
    List (Idx × Idx × Finset Nat) :=
  ecs.filterMap fun p =>
    if (cand p.1 p.2).card = 2 then some (p.1, p.2, cand p.1 p.2) else none

/-- Source `itertools.combinations(l, 2)` in Python's order: all index-increasing
pairs. -/
def pairCombos {α : Type} : List α → List (α × α)
  | [] => []
  | x :: xs => (xs.map fun y => (x, y)) ++ pairCombos xs

/-- The eliminations gathered for one matching naked pair: for every other
empty cell of the unit, each of the pair's two values that it holds, in the
source's iteration order. -/
def nakedPairElims (cand : Cands) (ecs : List (Idx × Idx))
    (p1 p2 : Idx × Idx) (cs : Finset Nat) : List (Idx × Idx × Nat) :=
  ecs.flatMap fun q =>
    if q = p1 ∨ q = p2 then []
    else (finSorted cs).filterMap fun v =>
      if v ∈ cand q.1 q.2 then some (q.1, q.2, v) else none

/-- Source `_find_naked_pairs_in_unit`: first combination of two bi-value cells
with equal candidate sets whose elimination list is non-empty. -/
def find_naked_pairs_in_unit (cand : Cands) (ecs : List (Idx × Idx)) :
    Option (List (Idx × Idx × Nat)) :=
  (pairCombos (nakedPairCells cand ecs)).findSome? fun pr =>
    if pr.1.2.2 = pr.2.2.2 then
      match nakedPairElims cand ecs (pr.1.1, pr.1.2.1) (pr.2.1, pr.2.2.1) pr.1.2.2 with
      | [] => none
      | el => some el
    else none

/-- Source `NakedPairsStrategy.process`: scan rows, columns then boxes 0-8; skip
units with fewer than two empty cells; return the first find. -/
def nakedPairsProcess (b : Board) : Option (List (Idx × Idx × Nat)) :=
  unitsInOrder.findSome? fun u =>
    let ecs := empty_cells_in_unit b.cells u.1 u.2
    if ecs.length < 2 then none else find_naked_pairs_in_unit b.candidates ecs

/-- A strategy result as stored by `StrategicSolver.find_strategy`: either
`values_to_insert` (a Value Finder fired) or `candidates_to_eliminate`
(a Candidate Eliminator fired). -/
inductive Proposal
  | insertions (l : List (Idx × Idx × Nat))
  | eliminations (l : List (Idx × Idx × Nat))
deriving DecidableEq

/-- The elimination commit of `StrategicSolver.apply_strategy`: remove each
listed candidate from the candidate set at its coordinates when present. -/
def eliminate_candidates (el : List (Idx × Idx × Nat)) (cand : Cands) : Cands :=
  el.foldl (fun g e => upd2 g e.1 e.2.1 ((g e.1 e.2.1).erase e.2.2)) cand

/-- Source `Board.update_candidates_on_insert`: clear the candidates of the updated
cell and discard the inserted value from every other cell of its row, column
and box. -/
def update_candidates_on_insert (cells : Cells) (cand : Cands) (r c : Idx) : Cands :=
  fun r1 c1 =>
    if r1 = r ∧ c1 = c then ∅
    else if r1 = r ∨ c1 = c ∨ (r1.val / 3 = r.val / 3 ∧ c1.val / 3 = c.val / 3) then
      match cells r c with
      | some v => (cand r1 c1).erase v
      | none => cand r1 c1
    else cand r1 c1

/-- The insertion commit of `StrategicSolver.apply_strategy`: set each listed
cell then propagate with `update_candidates_on_insert`. -/
def insert_values (l : List (Idx × Idx × Nat)) (b : Board) : Board :=
  l.foldl (fun bd e =>
    let cells1 := upd2 bd.cells e.1 e.2.1 (some e.2.2)
    ⟨cells1, update_candidates_on_insert cells1 bd.candidates e.1 e.2.1⟩) b

/-- Source `StrategicSolver.apply_strategy`: commit the pending proposal
(eliminations are checked first in the source; the two kinds are disjoint
here by the tagged type). -/
def apply_strategy (p : Proposal) (b : Board) : Board :=
  match p with
  | .eliminations l => ⟨b.cells, eliminate_candidates l b.candidates⟩
  | .insertions l => insert_values l b

/-- The states of `SudokuStateMachine`. -/
inductive MState
  | finding
  | applying
  | checking
  | solvedState
  | unsolvableState
deriving DecidableEq

/-- The mutable data of `SudokuStateMachine` plus its solver: the board, the
current state name, the `no_strategy_count` streak, and the solver's stored
proposal (`values_to_insert` / `candidates_to_eliminate`). -/
structure SMState where
  board : Board
  state : MState
  streak : Nat
  pending : Option Proposal

/-- One `transition_state` call of `SudokuStateMachine`, with the solver's
`find_strategy` abstracted as a function of the board it reads. -/
def smStep (find : Board → Option Proposal) (s : SMState) : SMState :=
  match s.state with
  | .finding =>
    match find s.board with
    | some p => { s with state := .applying, streak := 0, pending := some p }
    | none =>
      if ¬ validate s.board.cells ∨ 1 ≤ s.streak then { s with state := .unsolvableState }
      else { s with streak := s.streak + 1, state := .checking }
  | .applying =>
    match s.pending with
    | some p => { s with board := apply_strategy p s.board, pending := none, state := .checking }
    | none => { s with state := .checking }
  | .checking =>
    if is_solved s.board.cells then { s with state := .solvedState }
    else { s with state := .finding }
  | .solvedState => s
  | .unsolvableState => s

/-- The machine's initial configuration for a board: state
`finding_best_strategy`, zero streak, no stored proposal. -/
def initSM (b : Board) : SMState := ⟨b, .finding, 0, none⟩

/-- A terminal state of the machine. -/
def isTerminal (s : SMState) : Prop :=
  s.state = .solvedState ∨ s.state = .unsolvableState

instance (s : SMState) : Decidable (isTerminal s) := by
  unfold isTerminal; infer_instance

/-- Number of empty cells of a value grid. -/
def emptyCount (cells : Cells) : Nat :=
  (Finset.univ.filter fun p : Idx × Idx => cells p.1 p.2 = none).card

/-- Total number of candidates over the whole candidate grid. -/
def totalCand (cand : Cands) : Nat := ∑ p : Idx × Idx, (cand p.1 p.2).card

/-- The progress measure of one solving cycle: empty cells plus remaining
candidates. -/
def measureB (b : Board) : Nat := emptyCount b.cells + totalCand b.candidates

/-- The state of `BacktrackingSolver._solve_board`, with Python's reference
semantics for the candidate grid made explicit: `rowOf` is the outer list of
row-object references (`self.board.candidates`), `store` maps each reference
to the row contents, so `candidates.copy()` copies `rowOf` only (a shallow
copy) while `update_candidates_backtracking` writes through the references
into `store`. -/
structure BTState where
  cells : Cells
  rowOf : Idx → Nat
  store : Nat → Idx → Finset Nat
  cache : List (Cells × Bool)

/-- The candidate set the solver observes at `(r, c)`: dereference the row
object then index the column. -/
def candAt (s : BTState) (r c : Idx) : Finset Nat := s.store (s.rowOf r) c

/-- The observable candidate grid of a backtracking state. -/
def candGrid (s : BTState) : Cands := fun r c => candAt s r c

/-- Memoization lookup keyed by the value-grid snapshot
(`_board_to_tuple`). -/
def cacheLookup (cache : List (Cells × Bool)) (k : Cells) : Option Bool :=
  (cache.find? fun e => decide (e.1 = k)).map (·.2)

/-- Memoization insert; prepending with first-match lookup models the dict
overwrite. -/
def cachePut (s : BTState) (k : Cells) (v : Bool) : BTState :=
  { s with cache := (k, v) :: s.cache }

/-- Overwrite one row object of the candidate store. -/
def btWriteRow (st : Nat → Idx → Finset Nat) (p : Nat) (row : Idx → Finset Nat) :
    Nat → Idx → Finset Nat :=
  fun q c => if q = p then row c else st q c

/-- The row contents computed by `update_candidates_backtracking` for row `r`
from the current value grid. -/
def btNewRow (cells : Cells) (r : Idx) : Idx → Finset Nat := fun c =>
  if cells r c = none then
    (((fullSet \ get_row_numbers cells r) \ get_col_numbers cells c) \ get_box_numbers cells r c)
  else ∅

/-- Source `Board.update_candidates_backtracking` as executed on the aliased state:
rows 0-8 in order, each written through its reference (later rows overwrite
earlier ones on an aliased reference, as sequential Python writes would). -/
def btRecompute (s : BTState) : BTState :=
  let newStore := (List.finRange 9).foldl
    (fun st r => btWriteRow st (s.rowOf r) (btNewRow s.cells r)) s.store
  { s with store := newStore }

/-- In-place cell write `self.board.cells[row][col] = v`. -/
def btSetCell (s : BTState) (r c : Idx) (v : Option Nat) : BTState :=
  { s with cells := upd2 s.cells r c v }

/-- One cell visit of `_find_most_constrained_cell`: an empty cell replaces
the best candidate when its count is strictly smaller (or nothing was found
yet, matching the initial `float('inf')`). -/
def fmccStep (s : BTState) (acc : Option (Nat × (Idx × Idx))) (p : Idx × Idx) :
    Option (Nat × (Idx × Idx)) :=
  if s.cells p.1 p.2 = none then
    match acc with
    | none => some ((candAt s p.1 p.2).card, p)
    | some (m, q) =>
      if (candAt s p.1 p.2).card < m then some ((candAt s p.1 p.2).card, p)
      else some (m, q)
  else acc

/-- Source `_find_most_constrained_cell`: row-major scan for the empty cell with
strictly fewest candidates (first found wins ties). -/
def find_most_constrained_cell (s : BTState) : Option (Idx × Idx) :=
  (idxPairsRM.foldl (fmccStep s) none).map (·.2)

/-- The candidate loop of `_solve_board` (`for num in sorted(...)`), with the
recursive `_solve_board` call abstracted as `solveRec`. On a legal trial:
write the cell, shallow-copy the outer reference list, recompute candidates
through the references, recurse; on failure restore the cell and rebind the
outer list to the saved (shallow) copy, then continue. -/
def btTry (solveRec : BTState → Bool × BTState) (key : Cells) (r c : Idx) :
    List Nat → BTState → Bool × BTState
  | [], s => (false, cachePut s key false)
  | n :: rest, s =>
    if board_check_placement s.cells n r c then
      let s1 := btSetCell s r c (some n)
      let saved := s1.rowOf
      let s2 := btRecompute s1
      let res := solveRec s2
      if res.1 then (true, cachePut res.2 key true)
      else
        let s4 := btSetCell res.2 r c none
        btTry solveRec key r c rest { s4 with rowOf := saved }
    else btTry solveRec key r c rest s

/-- Source `BacktrackingSolver._solve_board`, fuelled: memo lookup, MRV cell choice,
then the trial loop. Each recursive call consumes one unit of fuel; with fuel
larger than the recursion depth this is the source recursion. Out of fuel it
reports failure without touching the state. -/
def btSolve : Nat → BTState → Bool × BTState
  | 0, s => (false, s)
  | fuel + 1, s =>
    match cacheLookup s.cache s.cells with
    | some b => (b, s)
    | none =>
      match find_most_constrained_cell s with
      | none => (true, cachePut s s.cells true)
      | some (r, c) => btTry (btSolve fuel) s.cells r c (finSorted (candAt s r c)) s

/-- The backtracking entry point: the board's construction-time candidate
state followed by `solve`'s `update_candidates_backtracking` call; the row
objects are the nine distinct lists created at construction. -/
def btStart (cells : Cells) : BTState :=
  btRecompute { cells := cells, rowOf := fun r => r.val, store := fun _ _ => ∅, cache := [] }

/-- The direction of invariant I1 that the code maintains: a filled cell has
an empty candidate set. -/
def fwdI1 (b : Board) : Prop := ∀ r c : Idx, b.cells r c ≠ none → b.candidates r c = ∅

/-- A hidden single of unit `u` at `(r, c)` with value `v`, as detected by
`_find_hidden_single_in_unit`: `v` is a digit held by exactly one empty cell
of the unit, and that cell has more than one candidate. -/
def isHiddenSingle (b : Board) (u : UnitType × Idx) (r c : Idx) (v : Nat) : Prop :=
  1 ≤ v ∧ v ≤ 9 ∧
  candidateLocations b.candidates (empty_cells_in_unit b.cells u.1 u.2) v = [(r, c)] ∧
  1 < (b.candidates r c).card

/-- Source `find_strategy` over the embedded strategies, in the source's
pipeline order (Single Candidate, then Hidden Singles, then Naked Pairs):
the first strategy whose `process` returns a non-empty result wins, its
result tagged by the strategy's type (Value Finder or Candidate
Eliminator). -/
def pipelineFind (b : Board) : Option Proposal :=
  match singleCandidateProcess b with
  | some l => some (.insertions l)
  | none =>
    match hiddenSinglesProcess b with
    | some l => some (.insertions l)
    | none =>
      match nakedPairsProcess b with
      | some l => some (.eliminations l)
      | none => none

/-- A puzzle whose row 0 leaves cells (0,0) and (0,1) each with candidate
set {5}: row 0 holds 1,2,3,4,6,7,8 and the 9 at (1,0) covers both cells by
column or box. -/
def strA : List Char :=
  ("001234678" ++ "900000000" ++ "000000000" ++ "000000000" ++ "000000000" ++
   "000000000" ++ "000000000" ++ "000000000" ++ "000000000").toList

def cellsA : Cells := cellsOfString strA

def boardA : Board := ⟨cellsA, update_candidates_backtracking cellsA⟩

/-- A puzzle where cells (0,0), (0,1), (0,2) have candidate sets {5}, {7},
{5,7}: row 0 holds 1,2,3,4,6,8; the 9 at (1,0) covers all three by box; the
7 at (3,0) reaches (0,0) by column; the 5 at (3,1) reaches (0,1) by column. -/
def strC : List Char :=
  ("000123468" ++ "900000000" ++ "000000000" ++ "750000000" ++ "000000000" ++
   "000000000" ++ "000000000" ++ "000000000" ++ "000000000").toList

def cellsC : Cells := cellsOfString strC

def boardC : Board := ⟨cellsC, update_candidates_backtracking cellsC⟩

/-- A puzzle with a hidden single: in row 0 the digit 1 is a candidate only
at (0,0) (the 1s at (3,1) and (4,2) exclude it from (0,1) and (0,2)), and
(0,0) keeps candidates {1,2,3}. -/
def strH : List Char :=
  ("000456789" ++ "000000000" ++ "000000000" ++ "010000000" ++ "001000000" ++
   "000000000" ++ "000000000" ++ "000000000" ++ "000000000").toList

def cellsH : Cells := cellsOfString strH

def boardH : Board := ⟨cellsH, update_candidates_backtracking cellsH⟩

/-- A puzzle where cell (0,0) is empty with no legal value: row 0 holds
1-8 and the 9 at (2,0) shares its column and box. -/
def strW : List Char :=
  ("012345678" ++ "000000000" ++ "900000000" ++ "000000000" ++ "000000000" ++
   "000000000" ++ "000000000" ++ "000000000" ++ "000000000").toList

def cellsW : Cells := cellsOfString strW

/-- The empty puzzle. -/
def strZ : List Char := (String.join (List.replicate 9 "000000000")).toList

def cellsZ : Cells := cellsOfString strZ

def boardZ : Board := ⟨cellsZ, update_candidates_backtracking cellsZ⟩

theorem upd2_point {α : Type} (g : Idx → Idx → α) (r c : Idx) (v : α) :
    upd2 g r c v r c = v := by
  simp [upd2]

theorem upd2_other {α : Type} (g : Idx → Idx → α) (r c : Idx) (v : α) {r1 c1 : Idx}
    (h : ¬ (r1 = r ∧ c1 = c)) : upd2 g r c v r1 c1 = g r1 c1 := by
  simp [upd2, h]

theorem upd2_upd2 {α : Type} (g : Idx → Idx → α) (r c : Idx) (v w : α) :
    upd2 (upd2 g r c v) r c w = upd2 g r c w := by
  funext r1 c1
  by_cases h : r1 = r ∧ c1 = c <;> simp [upd2, h]

theorem upd2_self {α : Type} (g : Idx → Idx → α) (r c : Idx) :
    upd2 g r c (g r c) = g := by
  funext r1 c1
  by_cases h : r1 = r ∧ c1 = c
  · obtain ⟨rfl, rfl⟩ := h
    simp [upd2]
  · simp [upd2, h]

theorem board_init_ok_iff (s : List Char) (b : Board) :
    board_init s = .ok b ↔
      wellFormedString s ∧ validate (cellsOfString s) ∧
      b = ⟨cellsOfString s, update_candidates_backtracking (cellsOfString s)⟩ := by
  unfold board_init string_to_board
  by_cases hw : wellFormedString s
  · rw [if_pos hw]
    dsimp only
    by_cases hv : validate (cellsOfString s)
    · rw [if_pos hv]
      simp [hw, hv, eq_comm]
    · rw [if_neg hv]
      simp [hw, hv]
  · rw [if_neg hw]
    simp [hw]

/-- Claim C7: board construction fails with MalformedInput exactly when the
input string has length other than 81 or holds a character outside 0-9 (this
is decided before any candidate computation or validation), and any
well-formed string whose filled cells pass validation constructs a board. -/
theorem board_construction_malformed_iff (s : List Char) :
    (board_init s = .error .malformedInput ↔
      ¬ (s.length = 81 ∧ ∀ ch ∈ s, ch ∈ digits)) ∧
    ((s.length = 81 ∧ (∀ ch ∈ s, ch ∈ digits) ∧ validate (cellsOfString s)) →
      ∃ b, board_init s = .ok b) := by
  constructor
  · unfold board_init string_to_board
    by_cases hw : wellFormedString s
    · rw [if_pos hw]
      dsimp only
      obtain ⟨hw1, hw2⟩ := hw
      by_cases hv : validate (cellsOfString s)
      · rw [if_pos hv]
        simp [hw1]
        exact hw2
      · rw [if_neg hv]
        simp [hw1]
        exact hw2
    · rw [if_neg hw]
      have hw2 : ¬ (s.length = 81 ∧ ∀ ch ∈ s, ch ∈ digits) := hw
      simp [hw2]
  · rintro ⟨h1, h2, h3⟩
    exact ⟨_, (board_init_ok_iff s _).2 ⟨⟨h1, h2⟩, h3, rfl⟩⟩

/-- Witness for C7 at concrete inputs: a one-character string is rejected as
malformed, and the empty puzzle constructs a board. -/
theorem board_construction_malformed_iff_witness :
    board_init ['a'] = .error .malformedInput ∧ ∃ b, board_init strZ = .ok b :=
  ⟨(board_construction_malformed_iff ['a']).1.mpr (by decide),
   (board_construction_malformed_iff strZ).2 (by decide)⟩

theorem char_roundTrip (ch : Char) (h : ch ∈ digits) :
    cellChar (charToCell ch) = ch := by
  fin_cases h <;> decide

/-- Claim C8: for every string accepted by board construction, reading the
unmutated board back in row-major order (empty cells as the blank character
`'0'`; accepted strings contain no other blank) reproduces the string. -/
theorem board_round_trip (s : List Char) (b : Board) (h : board_init s = .ok b) :
    readBack b.cells = s := by
  obtain ⟨⟨hlen, hdig⟩, hv, rfl⟩ := (board_init_ok_iff s b).1 h
  apply List.ext_getElem
  · simp [readBack, hlen]
  · intro i h1 h2
    have hi : i < 81 := by
      simpa [hlen] using h2
    simp only [readBack, List.getElem_map, List.getElem_finRange, cellsOfString]
    show cellChar (charToCell (s.getD (9 * (i / 9) + i % 9) '0')) = s[i]
    have e1 : 9 * (i / 9) + i % 9 = i := by
      omega
    rw [e1, List.getD_eq_getElem s '0' (by omega)]
    exact char_roundTrip _ (hdig _ (List.getElem_mem _))

/-- Witness for C8: the empty puzzle string round-trips. -/
theorem board_round_trip_witness : readBack boardZ.cells = strZ :=
  board_round_trip strZ boardZ (by decide)

theorem eliminate_cons (e : Idx × Idx × Nat) (t : List (Idx × Idx × Nat)) (cand : Cands) :
    eliminate_candidates (e :: t) cand =
      eliminate_candidates t (upd2 cand e.1 e.2.1 ((cand e.1 e.2.1).erase e.2.2)) := rfl

theorem eliminate_mem (el : List (Idx × Idx × Nat)) (cand : Cands) (r c : Idx) (v : Nat) :
    v ∈ eliminate_candidates el cand r c ↔ v ∈ cand r c ∧ (r, c, v) ∉ el := by
  induction el generalizing cand with
  | nil => simp [eliminate_candidates]
  | cons e t ih =>
    obtain ⟨r0, c0, v0⟩ := e
    rw [eliminate_cons, ih]
    by_cases h : r = r0 ∧ c = c0
    · obtain ⟨rfl, rfl⟩ := h
      rw [upd2_point]
      simp only [Finset.mem_erase, List.mem_cons, Prod.mk.injEq, not_or]
      tauto
    · rw [upd2_other _ _ _ _ h]
      simp only [List.mem_cons, Prod.mk.injEq, not_or]
      tauto

/-- Claim C10: committing a candidate-elimination proposal leaves every cell
value unchanged, removes each listed candidate from the candidate set at its
coordinates, and leaves the candidate set of every unlisted coordinate
unchanged. -/
theorem apply_elimination_frame (b : Board) (el : List (Idx × Idx × Nat)) :
    (apply_strategy (.eliminations el) b).cells = b.cells ∧
    (∀ r c v, (r, c, v) ∈ el → v ∉ (apply_strategy (.eliminations el) b).candidates r c) ∧
    (∀ r c : Idx, (r, c) ∉ el.map (fun e => (e.1, e.2.1)) →
      (apply_strategy (.eliminations el) b).candidates r c = b.candidates r c) := by
  refine ⟨rfl, ?_, ?_⟩
  · intro r c v hm hv
    have h2 := (eliminate_mem el b.candidates r c v).1 hv
    exact h2.2 hm
  · intro r c hall
    show eliminate_candidates el b.candidates r c = b.candidates r c
    ext v
    rw [eliminate_mem]
    simp only [and_iff_left_iff_imp]
    intro _ hm
    exact hall (List.mem_map.2 ⟨(r, c, v), hm, rfl⟩)

/-- Witness for C10 on a concrete board and elimination list. -/
theorem apply_elimination_frame_witness :
    (apply_strategy (.eliminations [((0 : Idx), (0 : Idx), 5)]) boardA).cells = boardA.cells ∧
    5 ∉ (apply_strategy (.eliminations [((0 : Idx), (0 : Idx), 5)]) boardA).candidates 0 0 ∧
    (apply_strategy (.eliminations [((0 : Idx), (0 : Idx), 5)]) boardA).candidates 1 1 =
      boardA.candidates 1 1 :=
  ⟨(apply_elimination_frame boardA [((0 : Idx), (0 : Idx), 5)]).1,
   (apply_elimination_frame boardA [((0 : Idx), (0 : Idx), 5)]).2.1 0 0 5 (by decide),
   (apply_elimination_frame boardA [((0 : Idx), (0 : Idx), 5)]).2.2 1 1 (by decide)⟩

/-- Claim C5: in `finding_best_strategy`, the machine goes to `unsolvable`
exactly when no strategy is found and the board is invalid or the streak is
at least 1; with no strategy found on a valid board with zero streak it
increments the streak and goes to `checking_if_solved`; finding a strategy
resets the streak and goes to `applying_strategy`; hence a valid board never
reaches `unsolvable` on the first no-strategy occurrence. -/
theorem finding_step_characterization (find : Board → Option Proposal) (b : Board)
    (streak : Nat) (pending : Option Proposal) :
    ((smStep find ⟨b, .finding, streak, pending⟩).state = .unsolvableState ↔
      (find b = none ∧ (¬ validate b.cells ∨ 1 ≤ streak))) ∧
    (find b = none → validate b.cells → streak = 0 →
      (smStep find ⟨b, .finding, streak, pending⟩).state = .checking ∧
      (smStep find ⟨b, .finding, streak, pending⟩).streak = streak + 1) ∧
    (∀ p, find b = some p →
      (smStep find ⟨b, .finding, streak, pending⟩).state = .applying ∧
      (smStep find ⟨b, .finding, streak, pending⟩).streak = 0) ∧
    (validate b.cells → streak = 0 →
      (smStep find ⟨b, .finding, streak, pending⟩).state ≠ .unsolvableState) := by
  cases hf : find b with
  | some p => simp [smStep, hf]
  | none =>
    by_cases hc : ¬ validate b.cells ∨ 1 ≤ streak
    · have hstep : smStep find ⟨b, .finding, streak, pending⟩ =
        ⟨b, .unsolvableState, streak, pending⟩ := by
        simp [smStep, hf, hc]
      rw [hstep]
      refine ⟨by simp [hc], ?_, ?_, ?_⟩
      · intro _ h2 h3
        exfalso
        rcases hc with h | h
        · exact h h2
        · omega
      · intro p hp
        exact Option.noConfusion hp
      · intro h2 h3 _
        rcases hc with h | h
        · exact h h2
        · omega
    · have hstep : smStep find ⟨b, .finding, streak, pending⟩ =
        ⟨b, .checking, streak + 1, pending⟩ := by
        simp [smStep, hf, hc]
      rw [hstep]
      refine ⟨by simp [hc], fun _ _ _ => ⟨rfl, rfl⟩, ?_, fun _ _ => by simp⟩
      intro p hp
      exact Option.noConfusion hp

/-- Witness for C5: with no strategy available on a valid board with zero
streak, the machine moves to `checking_if_solved` with streak 1. -/
theorem finding_step_characterization_witness :
    (smStep (fun _ => none) ⟨boardA, .finding, 0, none⟩).state = .checking ∧
    (smStep (fun _ => none) ⟨boardA, .finding, 0, none⟩).streak = 0 + 1 :=
  (finding_step_characterization (fun _ => none) boardA 0 none).2.1 rfl (by decide) rfl

theorem mem_idxPairsRM (p : Idx × Idx) : p ∈ idxPairsRM := by
  obtain ⟨r, c⟩ := p
  simp only [idxPairsRM, List.mem_flatMap, List.mem_map]
  exact ⟨r, List.mem_finRange r, c, List.mem_finRange c, rfl⟩

theorem pickSingle_singleton (a : Nat) : pickSingle {a} = a := by
  simp [pickSingle, Finset.min_singleton]
  rfl

/-- Counterexample to claim C2: on the board of `strA`, cells (0,0) and
(0,1) both have candidate set {5}, and `SingleCandidateStrategy.process`
returns both insertions, so the proposal has two entries, not at most one. -/
theorem singleCandidate_two_finds :
    singleCandidateProcess boardA =
      some [((0 : Idx), (0 : Idx), 5), ((0 : Idx), (1 : Idx), 5)] ∧
    ((singleCandidateProcess boardA).getD []).length = 2 := by
  decide

/-- Claim C2 amended: `SingleCandidateStrategy.process` aggregates across the
whole grid: a returned proposal is non-empty and contains exactly the triples
(r, c, v) such that the cell (r, c) is empty with candidate set {v}; it
returns no proposal exactly when no empty cell has a one-element candidate
set. -/
theorem singleCandidate_aggregates (b : Board) :
    (∀ l, singleCandidateProcess b = some l →
      l ≠ [] ∧ ∀ r c : Idx, ∀ v : Nat,
        ((r, c, v) ∈ l ↔ b.cells r c = none ∧ b.candidates r c = {v})) ∧
    (singleCandidateProcess b = none ↔
      ∀ r c : Idx, ¬ (b.cells r c = none ∧ (b.candidates r c).card = 1)) := by
  constructor
  · intro l hl
    by_cases hn : scFinds b = []
    · rw [singleCandidateProcess, if_pos hn] at hl
      exact Option.noConfusion hl
    · rw [singleCandidateProcess, if_neg hn] at hl
      obtain rfl : scFinds b = l := by
        cases hl
        rfl
      refine ⟨hn, ?_⟩
      intro r c v
      constructor
      · intro hm
        rcases List.mem_filterMap.1 hm with ⟨p, _, hsome⟩
        by_cases hcond : b.cells p.1 p.2 = none ∧ (b.candidates p.1 p.2).card = 1
        · rw [if_pos hcond] at hsome
          obtain ⟨a, ha⟩ := Finset.card_eq_one.1 hcond.2
          obtain ⟨h1, h2, h3⟩ : p.1 = r ∧ p.2 = c ∧ pickSingle (b.candidates p.1 p.2) = v := by
            cases hsome
            exact ⟨rfl, rfl, rfl⟩
          subst h1
          subst h2
          rw [ha, pickSingle_singleton] at h3
          subst h3
          exact ⟨hcond.1, ha⟩
        · rw [if_neg hcond] at hsome
          exact Option.noConfusion hsome
      · rintro ⟨hcell, hcand⟩
        apply List.mem_filterMap.2
        refine ⟨(r, c), mem_idxPairsRM (r, c), ?_⟩
        have hcond : b.cells r c = none ∧ (b.candidates r c).card = 1 := by
          refine ⟨hcell, ?_⟩
          rw [hcand]
          simp
        rw [if_pos hcond]
        rw [show b.candidates r c = {v} from hcand, pickSingle_singleton]
  · by_cases hn : scFinds b = []
    · rw [singleCandidateProcess, if_pos hn]
      simp only [true_iff]
      rintro r c ⟨hcell, hcard⟩
      have h0 := List.filterMap_eq_nil_iff.1 hn (r, c) (mem_idxPairsRM (r, c))
      rw [if_pos ⟨hcell, hcard⟩] at h0
      exact Option.noConfusion h0
    · rw [singleCandidateProcess, if_neg hn]
      constructor
      · intro h
        exact Option.noConfusion h
      · intro hall
        exfalso
        obtain ⟨x, hx⟩ := List.exists_mem_of_ne_nil _ hn
        rcases List.mem_filterMap.1 hx with ⟨p, _, hsome⟩
        by_cases hcond : b.cells p.1 p.2 = none ∧ (b.candidates p.1 p.2).card = 1
        · exact hall p.1 p.2 hcond
        · rw [if_neg hcond] at hsome
          exact Option.noConfusion hsome

/-- Witness for the amended C2 at the board of `strA`: the returned list
contains (0,0,5) and indeed that cell is empty with candidate set {5}. -/
theorem singleCandidate_aggregates_witness :
    (((0 : Idx), (0 : Idx), (5 : Nat)) ∈
        [((0 : Idx), (0 : Idx), 5), ((0 : Idx), (1 : Idx), 5)] ↔
      boardA.cells 0 0 = none ∧ boardA.candidates 0 0 = {5}) :=
  ((singleCandidate_aggregates boardA).1
    [((0 : Idx), (0 : Idx), 5), ((0 : Idx), (1 : Idx), 5)] (by decide)).2 0 0 5

/-- Counterexample to claim C3: `strC` constructs a valid board on which the
Single Candidate strategy (the first strategy of the pipeline) proposes
inserting 5 at (0,0) and 7 at (0,1); committing that proposal through
`apply_strategy` removes both candidates of the still-empty cell (0,2),
leaving an empty cell with an empty candidate set, so I1 does not hold after
this mutation. -/
theorem apply_strategy_empties_a_candidate_set :
    board_init strC = .ok boardC ∧
    singleCandidateProcess boardC = some [((0 : Idx), (0 : Idx), 5), ((0 : Idx), (1 : Idx), 7)] ∧
    (apply_strategy (.insertions [((0 : Idx), (0 : Idx), 5), ((0 : Idx), (1 : Idx), 7)])
      boardC).cells 0 2 = none ∧
    (apply_strategy (.insertions [((0 : Idx), (0 : Idx), 5), ((0 : Idx), (1 : Idx), 7)])
      boardC).candidates 0 2 = ∅ := by
  decide

theorem insert_values_cons (e : Idx × Idx × Nat) (t : List (Idx × Idx × Nat)) (b : Board) :
    insert_values (e :: t) b =
      insert_values t
        ⟨upd2 b.cells e.1 e.2.1 (some e.2.2),
         update_candidates_on_insert (upd2 b.cells e.1 e.2.1 (some e.2.2))
           b.candidates e.1 e.2.1⟩ := rfl

theorem fwdI1_insert_values (l : List (Idx × Idx × Nat)) :
    ∀ b : Board, fwdI1 b → fwdI1 (insert_values l b) := by
  induction l with
  | nil =>
    intro b hb
    exact hb
  | cons e t ih =>
    intro b hb
    rw [insert_values_cons]
    apply ih
    obtain ⟨r0, c0, v0⟩ := e
    intro r c hf
    show update_candidates_on_insert (upd2 b.cells r0 c0 (some v0)) b.candidates r0 c0 r c = ∅
    unfold update_candidates_on_insert
    by_cases h1 : r = r0 ∧ c = c0
    · rw [if_pos h1]
    · rw [if_neg h1]
      have hcells : b.cells r c ≠ none := by
        have hne := hf
        dsimp only at hne
        rwa [upd2_other _ _ _ _ h1] at hne
      have hcand : b.candidates r c = ∅ := hb r c hcells
      by_cases h2 : r = r0 ∨ c = c0 ∨ (r.val / 3 = r0.val / 3 ∧ c.val / 3 = c0.val / 3)
      · rw [if_pos h2, upd2_point]
        rw [hcand]
        exact Finset.erase_empty v0
      · rw [if_neg h2]
        exact hcand

/-- Claim C3 amended: the direction of I1 that the code maintains after every
mutation is `cell filled implies empty candidate set`: it holds after board
construction and is preserved by every `apply_strategy` commit (either kind).
The converse direction is not maintained: an empty cell's candidate set can
become empty (see the counterexample). -/
theorem fwdI1_preserved :
    (∀ (s : List Char) (b : Board), board_init s = .ok b → fwdI1 b) ∧
    (∀ (p : Proposal) (b : Board), fwdI1 b → fwdI1 (apply_strategy p b)) := by
  constructor
  · intro s b h
    obtain ⟨_, _, rfl⟩ := (board_init_ok_iff s b).1 h
    intro r c hf
    show update_candidates_backtracking (cellsOfString s) r c = ∅
    unfold update_candidates_backtracking
    rw [if_neg hf]
  · rintro p b hb
    cases p with
    | eliminations l =>
      intro r c hf
      show eliminate_candidates l b.candidates r c = ∅
      ext v
      simp only [Finset.not_mem_empty, iff_false]
      intro hv
      have h2 := (eliminate_mem l b.candidates r c v).1 hv
      have h3 := hb r c hf
      rw [h3] at h2
      exact Finset.not_mem_empty v h2.1
    | insertions l =>
      exact fwdI1_insert_values l b hb

/-- Witness for the amended C3: on the board of `strA` the filled cell (0,2)
has an empty candidate set. -/
theorem fwdI1_preserved_witness : boardA.candidates 0 2 = ∅ :=
  fwdI1_preserved.1 strA boardA (by decide) 0 2 (by decide)

theorem fmccStep_fold_empty (s : BTState) (l : List (Idx × Idx)) :
    ∀ acc : Option (Nat × (Idx × Idx)),
      (∀ n p, acc = some (n, p) → s.cells p.1 p.2 = none) →
      ∀ n p, l.foldl (fmccStep s) acc = some (n, p) → s.cells p.1 p.2 = none := by
  induction l with
  | nil =>
    intro acc h n p hf
    exact h n p (by simpa using hf)
  | cons x t ih =>
    intro acc h
    apply ih
    intro n p hstep
    by_cases hx : s.cells x.1 x.2 = none
    · cases hacc : acc with
      | none =>
        rw [hacc] at hstep
        unfold fmccStep at hstep
        rw [if_pos hx] at hstep
        injection hstep with h1
        have hpx : x = p := congrArg Prod.snd h1
        rw [← hpx]
        exact hx
      | some mq =>
        obtain ⟨m, q⟩ := mq
        rw [hacc] at hstep
        unfold fmccStep at hstep
        rw [if_pos hx] at hstep
        dsimp only at hstep
        by_cases hlt : (candAt s x.1 x.2).card < m
        · rw [if_pos hlt] at hstep
          injection hstep with h1
          have hpx : x = p := congrArg Prod.snd h1
          rw [← hpx]
          exact hx
        · rw [if_neg hlt] at hstep
          injection hstep with h1
          have hqp : q = p := congrArg Prod.snd h1
          rw [← hqp]
          exact h m q hacc
    · unfold fmccStep at hstep
      rw [if_neg hx] at hstep
      exact h n p hstep

theorem fmcc_empty (s : BTState) (r c : Idx)
    (h : find_most_constrained_cell s = some (r, c)) : s.cells r c = none := by
  unfold find_most_constrained_cell at h
  cases ho : idxPairsRM.foldl (fmccStep s) none with
  | none =>
    rw [ho] at h
    exact Option.noConfusion h
  | some np =>
    obtain ⟨n, p⟩ := np
    rw [ho] at h
    have hp : p = (r, c) := by
      simpa using h
    have h1 : p.1 = r := by
      rw [hp]
    have h2 : p.2 = c := by
      rw [hp]
    rw [← h1, ← h2]
    exact fmccStep_fold_empty s idxPairsRM none (fun n2 p2 h2 => Option.noConfusion h2) n p ho

theorem btTry_cons_eq (solveRec : BTState → Bool × BTState) (key : Cells) (r c : Idx)
    (n : Nat) (t : List Nat) (s : BTState) :
    btTry solveRec key r c (n :: t) s =
      if board_check_placement s.cells n r c then
        (if (solveRec (btRecompute (btSetCell s r c (some n)))).1 then
          (true, cachePut (solveRec (btRecompute (btSetCell s r c (some n)))).2 key true)
        else
          btTry solveRec key r c t
            { btSetCell (solveRec (btRecompute (btSetCell s r c (some n)))).2 r c none with
                rowOf := (btSetCell s r c (some n)).rowOf })
      else btTry solveRec key r c t s := rfl

theorem btTry_false_cells (solveRec : BTState → Bool × BTState)
    (hrec : ∀ t : BTState, (solveRec t).1 = false → (solveRec t).2.cells = t.cells)
    (key : Cells) (r c : Idx) :
    ∀ (nums : List Nat) (s : BTState), s.cells r c = none →
      (btTry solveRec key r c nums s).1 = false →
      (btTry solveRec key r c nums s).2.cells = s.cells := by
  intro nums
  induction nums with
  | nil =>
    intro s _ _
    rfl
  | cons n t ih =>
    intro s hrc hres
    rw [btTry_cons_eq] at hres ⊢
    by_cases hcp : board_check_placement s.cells n r c
    · rw [if_pos hcp] at hres ⊢
      cases hb : (solveRec (btRecompute (btSetCell s r c (some n)))).1
      · rw [hb] at hres
        simp only [Bool.false_eq_true, if_false] at hres ⊢
        have hrcells : (solveRec (btRecompute (btSetCell s r c (some n)))).2.cells =
            upd2 s.cells r c (some n) := hrec _ hb
        have h5 : ({ btSetCell (solveRec (btRecompute (btSetCell s r c (some n)))).2 r c none with
            rowOf := (btSetCell s r c (some n)).rowOf } : BTState).cells = s.cells := by
          show upd2 (solveRec (btRecompute (btSetCell s r c (some n)))).2.cells r c none = s.cells
          rw [hrcells, upd2_upd2, ← hrc, upd2_self]
        rw [ih _ (by rw [h5]; exact hrc) hres, h5]
      · rw [hb] at hres
        simp at hres
    · rw [if_neg hcp] at hres ⊢
      exact ih s hrc hres

theorem btSolve_succ_eq (fuel : Nat) (s : BTState) :
    btSolve (fuel + 1) s =
      match cacheLookup s.cache s.cells with
      | some b => (b, s)
      | none =>
        match find_most_constrained_cell s with
        | none => (true, cachePut s s.cells true)
        | some (r, c) => btTry (btSolve fuel) s.cells r c (finSorted (candAt s r c)) s := rfl

/-- Claim C9: whenever `_solve_board` returns False, the value grid equals
its value at the start of the call: every trial placement made during the
failed search has been undone. -/
theorem btSolve_false_preserves_cells : ∀ (fuel : Nat) (s : BTState),
    (btSolve fuel s).1 = false → (btSolve fuel s).2.cells = s.cells := by
  intro fuel
  induction fuel with
  | zero =>
    intro s _
    rfl
  | succ fuel ih =>
    intro s hres
    rw [btSolve_succ_eq] at hres ⊢
    cases hcl : cacheLookup s.cache s.cells with
    | some b =>
      rfl
    | none =>
      rw [hcl] at hres
      dsimp only at hres ⊢
      cases hm : find_most_constrained_cell s with
      | none =>
        rw [hm] at hres
        simp at hres
      | some rc =>
        obtain ⟨r, c⟩ := rc
        rw [hm] at hres
        dsimp only at hres
        exact btTry_false_cells (btSolve fuel) ih s.cells r c _ s (fmcc_empty s r c hm) hres

/-- Witness for C9: on the board of `strW` (cell (0,0) has no legal value)
the search fails and the value grid is unchanged. -/
theorem btSolve_false_preserves_cells_witness :
    (btSolve 1 (btStart cellsW)).1 = false ∧
    (btSolve 1 (btStart cellsW)).2.cells = (btStart cellsW).cells := by
  have h : (btSolve 1 (btStart cellsW)).1 = false := by decide
  exact ⟨h, btSolve_false_preserves_cells 1 (btStart cellsW) h⟩

/-- Claim C1 evidence: on the board of `strA`, the only trial of the top
call (placing 5 at (0,0)) fails, and the final state, reached right after
that trial's rollback, does not restore the candidate grid: the saved
snapshot is `candidates.copy()`, a shallow copy whose inner row lists are
the same objects the trial's `update_candidates_backtracking` writes
through, so after the rollback the cell (0,0) observes candidate set ∅
instead of the pre-trial {5}; the value grid itself is restored. -/
theorem backtracking_rollback_not_restored :
    (btSolve 3 (btStart cellsA)).1 = false ∧
    (btSolve 3 (btStart cellsA)).2.cells = (btStart cellsA).cells ∧
    candGrid (btStart cellsA) 0 0 = {5} ∧
    candGrid (btSolve 3 (btStart cellsA)).2 0 0 = ∅ := by
  decide

theorem sm_term_of_none (find : Board → Option Proposal) (b : Board) (k : Nat)
    (pd : Option Proposal) (hf : find b = none) :
    ∃ n, isTerminal ((smStep find)^[n] ⟨b, .finding, k, pd⟩) := by
  by_cases hc : ¬ validate b.cells ∨ 1 ≤ k
  · refine ⟨1, ?_⟩
    have h1 : smStep find ⟨b, .finding, k, pd⟩ = ⟨b, .unsolvableState, k, pd⟩ := by
      simp [smStep, hf, hc]
    show isTerminal (smStep find ⟨b, .finding, k, pd⟩)
    rw [h1]
    exact Or.inr rfl
  · have h1 : smStep find ⟨b, .finding, k, pd⟩ = ⟨b, .checking, k + 1, pd⟩ := by
      simp [smStep, hf, hc]
    by_cases hsv : is_solved b.cells
    · refine ⟨2, ?_⟩
      have h2 : smStep find ⟨b, .checking, k + 1, pd⟩ = ⟨b, .solvedState, k + 1, pd⟩ := by
        simp [smStep, hsv]
      show isTerminal (smStep find (smStep find ⟨b, .finding, k, pd⟩))
      rw [h1, h2]
      exact Or.inl rfl
    · refine ⟨3, ?_⟩
      have h2 : smStep find ⟨b, .checking, k + 1, pd⟩ = ⟨b, .finding, k + 1, pd⟩ := by
        simp [smStep, hsv]
      have hc2 : ¬ validate b.cells ∨ 1 ≤ k + 1 := Or.inr (by omega)
      have h3 : smStep find ⟨b, .finding, k + 1, pd⟩ = ⟨b, .unsolvableState, k + 1, pd⟩ := by
        simp [smStep, hf, hc2]
      show isTerminal (smStep find (smStep find (smStep find ⟨b, .finding, k, pd⟩)))
      rw [h1, h2, h3]
      exact Or.inr rfl

theorem sm_term_aux (find : Board → Option Proposal)
    (H : ∀ (b : Board) (p : Proposal), find b = some p →
      measureB (apply_strategy p b) < measureB b) :
    ∀ (k : Nat) (b : Board) (str : Nat) (pd : Option Proposal), measureB b ≤ k →
      ∃ n, isTerminal ((smStep find)^[n] ⟨b, .finding, str, pd⟩) := by
  intro k
  induction k with
  | zero =>
    intro b str pd hm
    cases hf : find b with
    | none => exact sm_term_of_none find b str pd hf
    | some p =>
      have := H b p hf
      omega
  | succ k ih =>
    intro b str pd hm
    cases hf : find b with
    | none => exact sm_term_of_none find b str pd hf
    | some p =>
      have h1 : smStep find ⟨b, .finding, str, pd⟩ = ⟨b, .applying, 0, some p⟩ := by
        simp [smStep, hf]
      have h2 : smStep find ⟨b, .applying, 0, some p⟩ =
          ⟨apply_strategy p b, .checking, 0, none⟩ := by
        simp [smStep]
      by_cases hsv : is_solved (apply_strategy p b).cells
      · refine ⟨3, ?_⟩
        have h3 : smStep find ⟨apply_strategy p b, .checking, 0, none⟩ =
            ⟨apply_strategy p b, .solvedState, 0, none⟩ := by
          simp [smStep, hsv]
        show isTerminal (smStep find (smStep find (smStep find ⟨b, .finding, str, pd⟩)))
        rw [h1, h2, h3]
        exact Or.inl rfl
      · have h3 : smStep find ⟨apply_strategy p b, .checking, 0, none⟩ =
            ⟨apply_strategy p b, .finding, 0, none⟩ := by
          simp [smStep, hsv]
        have hm2 : measureB (apply_strategy p b) ≤ k := by
          have := H b p hf
          omega
        obtain ⟨m, hterm⟩ := ih (apply_strategy p b) 0 none hm2
        refine ⟨m + 3, ?_⟩
        rw [Function.iterate_add_apply]
        have hsteps : (smStep find)^[3] ⟨b, .finding, str, pd⟩ =
            ⟨apply_strategy p b, .finding, 0, none⟩ := by
          show smStep find (smStep find (smStep find ⟨b, .finding, str, pd⟩)) = _
          rw [h1, h2, h3]
        rw [hsteps]
        exact hterm

/-- Any pipeline whose fired proposals strictly shrink the progress measure
drives the state machine to a terminal state from the initial
configuration. -/
theorem sm_terminates_of_progress (find : Board → Option Proposal)
    (H : ∀ (b : Board) (p : Proposal), find b = some p →
      measureB (apply_strategy p b) < measureB b) (b : Board) :
    ∃ n, isTerminal ((smStep find)^[n] (initSM b)) :=
  sm_term_aux find H (measureB b) b 0 none le_rfl

theorem findSome_eq_some_split {α β : Type} (f : α → Option β) :
    ∀ (l : List α) (b : β), l.findSome? f = some b ↔
      ∃ l1 x l2, l = l1 ++ x :: l2 ∧ f x = some b ∧ ∀ y ∈ l1, f y = none := by
  intro l
  induction l with
  | nil =>
    intro b
    constructor
    · intro h
      exact Option.noConfusion h
    · rintro ⟨l1, x, l2, hl, - , -⟩
      cases l1 <;> simp at hl
  | cons a t ih =>
    intro b
    rw [List.findSome?_cons]
    cases hfa : f a with
    | some v =>
      constructor
      · intro h
        refine ⟨[], a, t, rfl, ?_, by simp⟩
        rw [hfa]
        exact h
      · rintro ⟨l1, x, l2, hl, hfx, hnil⟩
        cases l1 with
        | nil =>
          obtain ⟨rfl, rfl⟩ : a = x ∧ t = l2 := by
            simpa using hl
          rw [hfa] at hfx
          exact hfx
        | cons y ys =>
          obtain ⟨rfl, -⟩ : a = y ∧ t = ys ++ x :: l2 := by
            simpa using hl
          have := hnil a (by simp)
          rw [hfa] at this
          exact Option.noConfusion this
    | none =>
      constructor
      · intro h
        obtain ⟨l1, x, l2, rfl, hfx, hn⟩ := (ih b).1 h
        refine ⟨a :: l1, x, l2, rfl, hfx, ?_⟩
        intro y hy
        rcases List.mem_cons.1 hy with rfl | hy2
        · exact hfa
        · exact hn y hy2
      · rintro ⟨l1, x, l2, hl, hfx, hn⟩
        cases l1 with
        | nil =>
          obtain ⟨rfl, rfl⟩ : a = x ∧ t = l2 := by
            simpa using hl
          rw [hfa] at hfx
          exact Option.noConfusion hfx
        | cons y ys =>
          obtain ⟨rfl, rfl⟩ : a = y ∧ t = ys ++ x :: l2 := by
            simpa using hl
          exact (ih b).2 ⟨ys, x, l2, rfl, hfx, fun z hz => hn z (List.mem_cons_of_mem a hz)⟩

theorem unitScan_some (b : Board) (u : UnitType × Idx) (r c : Idx) (v : Nat)
    (h : hiddenSinglesUnitScan b u = some (r, c, v)) : isHiddenSingle b u r c v := by
  unfold hiddenSinglesUnitScan at h
  by_cases he : (empty_cells_in_unit b.cells u.1 u.2).isEmpty
  · rw [if_pos he] at h
    exact Option.noConfusion h
  · rw [if_neg he] at h
    unfold find_hidden_single_in_unit at h
    obtain ⟨l1, w, l2, hrange, hfw, -⟩ := (findSome_eq_some_split _ _ _).1 h
    have hwmem : w ∈ List.range' 1 9 := by
      rw [hrange]
      simp
    have hwb := List.mem_range'_1.1 hwmem
    cases hloc : candidateLocations b.candidates (empty_cells_in_unit b.cells u.1 u.2) w with
    | nil =>
      rw [hloc] at hfw
      exact Option.noConfusion hfw
    | cons p rest =>
      cases rest with
      | nil =>
        rw [hloc] at hfw
        dsimp only at hfw
        by_cases hcard : 1 < (b.candidates p.1 p.2).card
        · rw [if_pos hcard] at hfw
          obtain ⟨h1, h2, h3⟩ : p.1 = r ∧ p.2 = c ∧ w = v := by
            injection hfw with h4
            exact ⟨congrArg (fun z => z.1) h4, congrArg (fun z => z.2.1) h4,
              congrArg (fun z => z.2.2) h4⟩
          subst h3
          refine ⟨hwb.1, by omega, ?_, ?_⟩
          · rw [hloc]
            rw [show p = (r, c) from Prod.ext h1 h2]
          · rw [← h1, ← h2]
            exact hcard
        · rw [if_neg hcard] at hfw
          exact Option.noConfusion hfw
      | cons q t2 =>
        rw [hloc] at hfw
        exact Option.noConfusion hfw

theorem unitScan_none_iff (b : Board) (u : UnitType × Idx) :
    hiddenSinglesUnitScan b u = none ↔ ∀ r c : Idx, ∀ v : Nat, ¬ isHiddenSingle b u r c v := by
  unfold hiddenSinglesUnitScan
  by_cases he : (empty_cells_in_unit b.cells u.1 u.2).isEmpty
  · rw [if_pos he]
    simp only [true_iff]
    rintro r c v ⟨-, -, hfil, -⟩
    rw [List.isEmpty_iff.1 he] at hfil
    simp [candidateLocations] at hfil
  · rw [if_neg he]
    unfold find_hidden_single_in_unit
    rw [List.findSome?_eq_none_iff]
    constructor
    · intro hall
      rintro r c v ⟨hv1, hv9, hfil, hcard⟩
      have hvm : v ∈ List.range' 1 9 := List.mem_range'_1.2 ⟨hv1, by omega⟩
      have h0 := hall v hvm
      rw [hfil] at h0
      dsimp only at h0
      rw [if_pos hcard] at h0
      exact Option.noConfusion h0
    · intro hns w hwm
      cases hloc : candidateLocations b.candidates (empty_cells_in_unit b.cells u.1 u.2) w with
      | nil => rfl
      | cons p rest =>
        cases rest with
        | nil =>
          dsimp only
          by_cases hcard : 1 < (b.candidates p.1 p.2).card
          · exfalso
            have hwb := List.mem_range'_1.1 hwm
            refine hns p.1 p.2 w ⟨hwb.1, by omega, ?_, hcard⟩
            rw [hloc]
          · rw [if_neg hcard]
        | cons q t2 => rfl

/-- Claim C6: `HiddenSinglesStrategy.process` scans rows, then columns, then
boxes, each with index 0-8, and returns a single insertion (r, c, v) for the
first unit holding a candidate value that occurs in exactly one empty cell's
candidate set where that cell has more than one candidate; when no unit
holds such a value it returns no proposal, and a returned cell always has
more than one candidate (size-1 cells are left to Single Candidate). -/
theorem hiddenSingles_characterization (b : Board) :
    (hiddenSinglesProcess b = none ↔
      ∀ u ∈ unitsInOrder, ∀ r c : Idx, ∀ v : Nat, ¬ isHiddenSingle b u r c v) ∧
    (∀ l, hiddenSinglesProcess b = some l →
      ∃ (r c : Idx) (v : Nat) (pre : List (UnitType × Idx)) (u : UnitType × Idx)
        (post : List (UnitType × Idx)),
        l = [(r, c, v)] ∧ unitsInOrder = pre ++ u :: post ∧
        isHiddenSingle b u r c v ∧
        ∀ u2 ∈ pre, ∀ r2 c2 : Idx, ∀ v2 : Nat, ¬ isHiddenSingle b u2 r2 c2 v2) := by
  constructor
  · unfold hiddenSinglesProcess
    rw [Option.map_eq_none']
    rw [List.findSome?_eq_none_iff]
    constructor
    · intro hall u hu r c v
      exact (unitScan_none_iff b u).1 (hall u hu) r c v
    · intro hns u hu
      exact (unitScan_none_iff b u).2 (fun r c v => hns u hu r c v)
  · intro l hl
    obtain ⟨x, hsc, rfl⟩ : ∃ x, unitsInOrder.findSome? (hiddenSinglesUnitScan b) = some x ∧
        l = [x] := by
      unfold hiddenSinglesProcess at hl
      rcases Option.map_eq_some'.1 hl with ⟨x, h1, h2⟩
      exact ⟨x, h1, h2.symm⟩
    obtain ⟨pre, u, post, hdecomp, hu, hpre⟩ := (findSome_eq_some_split _ _ _).1 hsc
    obtain ⟨r, c, v⟩ := x
    refine ⟨r, c, v, pre, u, post, rfl, hdecomp, unitScan_some b u r c v hu, ?_⟩
    intro u2 hu2 r2 c2 v2
    exact (unitScan_none_iff b u2).1 (hpre u2 hu2) r2 c2 v2

/-- Witness for C6: on the board of `strH` the strategy fires on the first
unit (row 0) with the hidden single 1 at (0,0). -/
theorem hiddenSingles_characterization_witness :
    ∃ (r c : Idx) (v : Nat) (pre : List (UnitType × Idx)) (u : UnitType × Idx)
      (post : List (UnitType × Idx)),
      [((0 : Idx), (0 : Idx), (1 : Nat))] = [(r, c, v)] ∧ unitsInOrder = pre ++ u :: post ∧
      isHiddenSingle boardH u r c v ∧
      ∀ u2 ∈ pre, ∀ r2 c2 : Idx, ∀ v2 : Nat, ¬ isHiddenSingle boardH u2 r2 c2 v2 :=
  (hiddenSingles_characterization boardH).2 [((0 : Idx), (0 : Idx), (1 : Nat))] (by decide)

theorem emptyCount_upd2_le (cells : Cells) (r c : Idx) (v : Nat) :
    emptyCount (upd2 cells r c (some v)) ≤ emptyCount cells := by
  unfold emptyCount
  apply Finset.card_le_card
  intro p hp
  simp only [Finset.mem_filter, Finset.mem_univ, true_and] at hp ⊢
  by_cases h : p.1 = r ∧ p.2 = c
  · exfalso
    rw [upd2, if_pos h] at hp
    exact Option.noConfusion hp
  · rwa [upd2_other _ _ _ _ h] at hp

theorem totalCand_le (g1 g2 : Cands) (h : ∀ r c : Idx, g1 r c ⊆ g2 r c) :
    totalCand g1 ≤ totalCand g2 :=
  Finset.sum_le_sum fun p _ => Finset.card_le_card (h p.1 p.2)

theorem totalCand_lt (g1 g2 : Cands) (h : ∀ r c : Idx, g1 r c ⊆ g2 r c) (r0 c0 : Idx)
    (hlt : (g1 r0 c0).card < (g2 r0 c0).card) : totalCand g1 < totalCand g2 :=
  Finset.sum_lt_sum (fun p _ => Finset.card_le_card (h p.1 p.2))
    ⟨(r0, c0), Finset.mem_univ _, hlt⟩

theorem update_on_insert_subset (cells : Cells) (cand : Cands) (r c r1 c1 : Idx) :
    update_candidates_on_insert cells cand r c r1 c1 ⊆ cand r1 c1 := by
  unfold update_candidates_on_insert
  by_cases h1 : r1 = r ∧ c1 = c
  · rw [if_pos h1]
    exact Finset.empty_subset _
  · rw [if_neg h1]
    by_cases h2 : r1 = r ∨ c1 = c ∨ (r1.val / 3 = r.val / 3 ∧ c1.val / 3 = c.val / 3)
    · rw [if_pos h2]
      cases cells r c with
      | some v => exact Finset.erase_subset v (cand r1 c1)
      | none => exact subset_rfl
    · rw [if_neg h2]

theorem update_on_insert_point (cells : Cells) (cand : Cands) (r c : Idx) :
    update_candidates_on_insert cells cand r c r c = ∅ := by
  unfold update_candidates_on_insert
  rw [if_pos ⟨rfl, rfl⟩]

theorem insert_step_measure_le (b : Board) (r c : Idx) (v : Nat) :
    measureB ⟨upd2 b.cells r c (some v),
      update_candidates_on_insert (upd2 b.cells r c (some v)) b.candidates r c⟩ ≤
      measureB b := by
  unfold measureB
  dsimp only
  have h1 := emptyCount_upd2_le b.cells r c v
  have h2 := totalCand_le _ _
    (fun r1 c1 => update_on_insert_subset (upd2 b.cells r c (some v)) b.candidates r c r1 c1)
  omega

theorem insert_step_measure_lt (b : Board) (r c : Idx) (v : Nat)
    (h : b.candidates r c ≠ ∅) :
    measureB ⟨upd2 b.cells r c (some v),
      update_candidates_on_insert (upd2 b.cells r c (some v)) b.candidates r c⟩ <
      measureB b := by
  unfold measureB
  dsimp only
  have h1 := emptyCount_upd2_le b.cells r c v
  have h2 : totalCand (update_candidates_on_insert (upd2 b.cells r c (some v))
      b.candidates r c) < totalCand b.candidates := by
    apply totalCand_lt _ _
      (fun r1 c1 => update_on_insert_subset (upd2 b.cells r c (some v)) b.candidates r c r1 c1)
      r c
    rw [update_on_insert_point]
    simpa using Finset.card_pos.2 (Finset.nonempty_iff_ne_empty.2 h)
  omega

theorem insert_values_measure_le (l : List (Idx × Idx × Nat)) :
    ∀ b : Board, measureB (insert_values l b) ≤ measureB b := by
  induction l with
  | nil =>
    intro b
    exact le_rfl
  | cons e t ih =>
    intro b
    rw [insert_values_cons]
    exact le_trans (ih _) (insert_step_measure_le b e.1 e.2.1 e.2.2)

theorem insert_values_measure_lt (e : Idx × Idx × Nat) (t : List (Idx × Idx × Nat))
    (b : Board) (h : b.candidates e.1 e.2.1 ≠ ∅) :
    measureB (insert_values (e :: t) b) < measureB b := by
  rw [insert_values_cons]
  exact lt_of_le_of_lt (insert_values_measure_le t _)
    (insert_step_measure_lt b e.1 e.2.1 e.2.2 h)

theorem eliminate_subset (el : List (Idx × Idx × Nat)) (cand : Cands) (r c : Idx) :
    eliminate_candidates el cand r c ⊆ cand r c := fun v hv =>
  ((eliminate_mem el cand r c v).1 hv).1

theorem elim_measure_lt (b : Board) (el : List (Idx × Idx × Nat))
    (e : Idx × Idx × Nat) (he : e ∈ el) (hp : e.2.2 ∈ b.candidates e.1 e.2.1) :
    measureB (apply_strategy (.eliminations el) b) < measureB b := by
  show emptyCount b.cells + totalCand (eliminate_candidates el b.candidates) <
    emptyCount b.cells + totalCand b.candidates
  have h2 : totalCand (eliminate_candidates el b.candidates) < totalCand b.candidates := by
    apply totalCand_lt _ _ (fun r c => eliminate_subset el b.candidates r c) e.1 e.2.1
    apply Finset.card_lt_card
    rw [Finset.ssubset_iff_of_subset (eliminate_subset el b.candidates e.1 e.2.1)]
    exact ⟨e.2.2, hp, fun hv =>
      ((eliminate_mem el b.candidates e.1 e.2.1 e.2.2).1 hv).2 he⟩
  omega

theorem scFinds_mem (b : Board) (e : Idx × Idx × Nat) (he : e ∈ scFinds b) :
    b.candidates e.1 e.2.1 ≠ ∅ := by
  rcases List.mem_filterMap.1 he with ⟨p, _, hsome⟩
  by_cases hcond : b.cells p.1 p.2 = none ∧ (b.candidates p.1 p.2).card = 1
  · rw [if_pos hcond] at hsome
    obtain ⟨h1, h2⟩ : p.1 = e.1 ∧ p.2 = e.2.1 := by
      injection hsome with h4
      rw [← h4]
      exact ⟨rfl, rfl⟩
    rw [← h1, ← h2]
    intro hempty
    rw [hempty] at hcond
    simp at hcond
  · rw [if_neg hcond] at hsome
    exact Option.noConfusion hsome

theorem scProcess_progress (b : Board) (l : List (Idx × Idx × Nat))
    (h : singleCandidateProcess b = some l) :
    measureB (apply_strategy (.insertions l) b) < measureB b := by
  obtain ⟨rfl, hne⟩ : l = scFinds b ∧ scFinds b ≠ [] := by
    unfold singleCandidateProcess at h
    by_cases hn : scFinds b = []
    · rw [if_pos hn] at h
      exact Option.noConfusion h
    · rw [if_neg hn] at h
      injection h with h2
      exact ⟨h2.symm, hn⟩
  cases hf : scFinds b with
  | nil => exact absurd hf hne
  | cons e t =>
    show measureB (insert_values (e :: t) b) < measureB b
    refine insert_values_measure_lt e t b (scFinds_mem b e ?_)
    rw [hf]
    exact List.mem_cons_self e t

theorem hsProcess_progress (b : Board) (l : List (Idx × Idx × Nat))
    (h : hiddenSinglesProcess b = some l) :
    measureB (apply_strategy (.insertions l) b) < measureB b := by
  obtain ⟨x, hsc, rfl⟩ : ∃ x, unitsInOrder.findSome? (hiddenSinglesUnitScan b) = some x ∧
      l = [x] := by
    unfold hiddenSinglesProcess at h
    rcases Option.map_eq_some'.1 h with ⟨x, h1, h2⟩
    exact ⟨x, h1, h2.symm⟩
  obtain ⟨pre, u, post, hdec, hu, hprev⟩ := (findSome_eq_some_split _ _ _).1 hsc
  obtain ⟨r, c, v⟩ := x
  have hhs := unitScan_some b u r c v hu
  have hne : b.candidates r c ≠ ∅ := by
    intro hemp
    have hcard := hhs.2.2.2
    rw [hemp] at hcard
    simp at hcard
  exact insert_values_measure_lt (r, c, v) [] b hne

theorem nakedPairElims_mem (cand : Cands) (ecs : List (Idx × Idx)) (p1 p2 : Idx × Idx)
    (cs : Finset Nat) (e : Idx × Idx × Nat) (he : e ∈ nakedPairElims cand ecs p1 p2 cs) :
    e.2.2 ∈ cand e.1 e.2.1 := by
  unfold nakedPairElims at he
  rcases List.mem_flatMap.1 he with ⟨q, _, hin⟩
  by_cases hq : q = p1 ∨ q = p2
  · rw [if_pos hq] at hin
    exact absurd hin (List.not_mem_nil e)
  · rw [if_neg hq] at hin
    rcases List.mem_filterMap.1 hin with ⟨v, _, hsome⟩
    by_cases hv : v ∈ cand q.1 q.2
    · rw [if_pos hv] at hsome
      obtain ⟨h1, h2, h3⟩ : q.1 = e.1 ∧ q.2 = e.2.1 ∧ v = e.2.2 := by
        injection hsome with h4
        rw [← h4]
        exact ⟨rfl, rfl, rfl⟩
      rw [← h1, ← h2, ← h3]
      exact hv
    · rw [if_neg hv] at hsome
      exact Option.noConfusion hsome

theorem npProcess_progress (b : Board) (el : List (Idx × Idx × Nat))
    (h : nakedPairsProcess b = some el) :
    measureB (apply_strategy (.eliminations el) b) < measureB b := by
  unfold nakedPairsProcess at h
  obtain ⟨pre, u, post, hdec, hu, hprev⟩ := (findSome_eq_some_split _ _ _).1 h
  by_cases hlen : (empty_cells_in_unit b.cells u.1 u.2).length < 2
  · rw [if_pos hlen] at hu
    exact Option.noConfusion hu
  · rw [if_neg hlen] at hu
    unfold find_naked_pairs_in_unit at hu
    obtain ⟨pre2, pr, post2, hdec2, hpr, hprev2⟩ := (findSome_eq_some_split _ _ _).1 hu
    by_cases heq : pr.1.2.2 = pr.2.2.2
    · rw [if_pos heq] at hpr
      cases hel : nakedPairElims b.candidates (empty_cells_in_unit b.cells u.1 u.2)
          (pr.1.1, pr.1.2.1) (pr.2.1, pr.2.2.1) pr.1.2.2 with
      | nil =>
        rw [hel] at hpr
        exact Option.noConfusion hpr
      | cons e t =>
        rw [hel] at hpr
        dsimp only at hpr
        obtain rfl : e :: t = el := by
          injection hpr
        have hmem : e ∈ nakedPairElims b.candidates (empty_cells_in_unit b.cells u.1 u.2)
            (pr.1.1, pr.1.2.1) (pr.2.1, pr.2.2.1) pr.1.2.2 := by
          rw [hel]
          exact List.mem_cons_self e t
        exact elim_measure_lt b (e :: t) e (List.mem_cons_self e t)
          (nakedPairElims_mem _ _ _ _ _ e hmem)
    · rw [if_neg heq] at hpr
      exact Option.noConfusion hpr

/-- Every proposal fired by the embedded pipeline strictly shrinks the
progress measure: insertions target cells with a non-empty candidate set
(which the commit clears), eliminations list only candidates present when
the strategy scanned the board. -/
theorem pipelineFind_progress (b : Board) (p : Proposal) (h : pipelineFind b = some p) :
    measureB (apply_strategy p b) < measureB b := by
  unfold pipelineFind at h
  cases hsc : singleCandidateProcess b with
  | some l =>
    rw [hsc] at h
    obtain rfl : Proposal.insertions l = p := by
      injection h
    exact scProcess_progress b l hsc
  | none =>
    rw [hsc] at h
    dsimp only at h
    cases hhs : hiddenSinglesProcess b with
    | some l =>
      rw [hhs] at h
      obtain rfl : Proposal.insertions l = p := by
        injection h
      exact hsProcess_progress b l hhs
    | none =>
      rw [hhs] at h
      dsimp only at h
      cases hnp : nakedPairsProcess b with
      | some l =>
        rw [hnp] at h
        obtain rfl : Proposal.eliminations l = p := by
          injection h
        exact npProcess_progress b l hnp
      | none =>
        rw [hnp] at h
        exact Option.noConfusion h

end Sudoku
